import Mathlib

/-!
Shallow embedding of `src/script/btb_downloader.py` (class `EpisodeDownloader`).

Strings are modelled as `List Char`.  Python `str.lower` is modelled on the
ASCII range; every theorem that touches lowercasing only depends on the fact
that characters outside `[a-z0-9]` are replaced by hyphens afterwards, so the
Unicode/ASCII difference is erased by the following substitution.  Python sets
are modelled as duplicate-free lists with membership semantics.  Fallible or
I/O-performing steps (HTTP requests, file writes) are modelled by explicit
inputs (page lists, file-content lists) and `Except` outcomes.
-/

namespace BTB

/-- ASCII model of Python `str.lower` on one character. -/
def pyLowerChar (c : Char) : Char :=
  if 'A' ≤ c ∧ c ≤ 'Z' then Char.ofNat (c.toNat + 32) else c

/-- ASCII model of Python `str.lower`. -/
def pyLower (s : List Char) : List Char := s.map pyLowerChar

/-- Membership in the character class `[a-z0-9]`. -/
def isLowerAlnum (c : Char) : Bool :=
  ('a' ≤ c && c ≤ 'z') || ('0' ≤ c && c ≤ '9')

/-- The character class `[A-Z]` of the post-processing regex. -/
def isUpperA (c : Char) : Bool := 'A' ≤ c && c ≤ 'Z'

/-- The character class `[a-z]` of the post-processing regex. -/
def isLowerA (c : Char) : Bool := 'a' ≤ c && c ≤ 'z'

/-- The whitespace set of Python `str.strip()` (ASCII core). -/
def isPySpace (c : Char) : Bool :=
  c == ' ' || c == '\t' || c == '\n' || c == '\r' || c == '\x0b' || c == '\x0c'

/-- Python `str.strip(chars)`: drop characters satisfying `p` from both ends. -/
def stripP (p : Char → Bool) (l : List Char) : List Char :=
  ((l.dropWhile p).reverse.dropWhile p).reverse

/-- Python `str.strip()` (no argument: whitespace). -/
def pstrip (l : List Char) : List Char := stripP isPySpace l

/-- Python `str.startswith`. -/
def startsWith : List Char → List Char → Bool
  | [], _ => true
  | _ :: _, [] => false
  | p :: ps, c :: cs => p == c && startsWith ps cs

/-- Python substring test `needle in hay`. -/
def hasSubstr (needle : List Char) : List Char → Bool
  | [] => needle.isEmpty
  | c :: t => startsWith needle (c :: t) || hasSubstr needle t

/-- Iterating a text file line by line, as `for line in f` does.  The lines are
returned without their terminating newline; the marker tests (`startswith`) are
unaffected since no marker contains a newline, and the payload extraction
applies `strip`, which removes the terminating newline in the source as well.
`cur` accumulates the current line in reverse. -/
def splitLinesAux : List Char → List Char → List (List Char)
  | [], cur => if cur.isEmpty then [] else [cur.reverse]
  | c :: cs, cur =>
    if c == '\n' then cur.reverse :: splitLinesAux cs []
    else splitLinesAux cs (c :: cur)

/-- Split file contents into lines (Python line iteration, newlines dropped). -/
def splitLines (l : List Char) : List (List Char) := splitLinesAux l []

/-- Decimal digit character. -/
def digitChar (d : Nat) : Char := Char.ofNat (48 + d)

/-- Decimal rendering of a natural number, fuel-structural; fuel `n + 1` always
suffices, so `toDec` computes Python `str` of a nonnegative int. -/
def toDecAux : Nat → Nat → List Char → List Char
  | 0, _, acc => acc
  | f + 1, n, acc =>
    if n < 10 then digitChar n :: acc
    else toDecAux f (n / 10) (digitChar (n % 10) :: acc)

/-- Python `str` of a nonnegative int. -/
def toDec (n : Nat) : List Char := toDecAux (n + 1) n []

/-! ### `_slugify` (lines 106-123) -/

/-- `re.sub(r'[^a-z0-9]+', '-', text)`: every maximal run of characters outside
`[a-z0-9]` is replaced by a single hyphen.  The flag records whether the scanner
is inside such a run (hyphen for the run already emitted). -/
def subNonAlnum : List Char → Bool → List Char
  | [], _ => []
  | c :: cs, inRun =>
    if isLowerAlnum c then c :: subNonAlnum cs false
    else if inRun then subNonAlnum cs true
    else '-' :: subNonAlnum cs true

/-- `text.strip('-')`. -/
def stripHyphens (l : List Char) : List Char := stripP (fun c => c == '-') l

/-- `re.sub(r'-+', '-', text)`: every maximal run of hyphens is replaced by a
single hyphen.  The flag records whether the previously scanned character was a
hyphen (so further hyphens of the same run are dropped). -/
def collapseHyphens : List Char → Bool → List Char
  | [], _ => []
  | c :: cs, prevHyphen =>
    if c == '-' then
      if prevHyphen then collapseHyphens cs true else '-' :: collapseHyphens cs true
    else c :: collapseHyphens cs false

/-- `EpisodeDownloader._slugify`: lowercase, replace non-alphanumeric runs by
hyphens, strip leading/trailing hyphens, collapse hyphen runs. -/
def slugify (text : List Char) : List Char :=
  collapseHyphens (stripHyphens (subNonAlnum (pyLower text) false)) false

/-! ### Episode data and `_build_episode_url` (lines 125-140) -/

/-- A JSON scalar as it can appear in the API's episode dictionary: the id
fields are opaque strings or integers. -/
inductive JVal
  | s (v : List Char)
  | n (v : Nat)
deriving DecidableEq

/-- f-string rendering of a JSON scalar. -/
def JVal.render : JVal → List Char
  | .s v => v
  | .n v => toDec v

/-- f-string rendering of `episode.get('id')` (Python renders `None` as
`"None"` when the key is absent). -/
def renderOpt : Option JVal → List Char
  | none => "None".data
  | some j => j.render

/-- The episode dictionary fields the script reads; `none` models an absent
key (so `.get` falls back to its default). -/
structure Episode where
  podcastSlug : Option (List Char) := none
  podcastId : Option JVal := none
  id : Option JVal := none
  title : Option (List Char) := none
  startDate : Option Nat := none
  duration : Option Nat := none
  description : Option (List Char) := none
deriving DecidableEq

/-- `episode.get('title', '')`. -/
def episodeTitle (e : Episode) : List Char := e.title.getD []

/-- `EpisodeDownloader._build_episode_url`. -/
def buildEpisodeUrl (e : Episode) : List Char :=
  "https://www.iheart.com/podcast/".data
    ++ e.podcastSlug.getD "105-behind-the-bastards".data
    ++ "-".data ++ (e.podcastId.getD (JVal.n 29236323)).render
    ++ "/episode/".data
    ++ slugify (episodeTitle e)
    ++ "-".data ++ renderOpt e.id
    ++ "/".data

/-- One API page response: its `data` list, its `pageKey` field and its
`links.next` field (`none` models both an absent key and a JSON null). -/
structure Page where
  data : List Episode := []
  pageKey : Option (List Char) := none
  linksNext : Option (List Char) := none

/-- The filter keeping Behind-the-Bastards episodes:
`"it could happen here" not in episode.get("title", "").lower()`. -/
def btbKeep (e : Episode) : Bool :=
  !hasSubstr "it could happen here".data (pyLower (episodeTitle e))

/-- Python truthiness of an optional string (`None` and `""` are falsy). -/
def truthyOpt : Option (List Char) → Bool
  | none => false
  | some s => !s.isEmpty

/-- Cursor resolution: `page_key = data.get("pageKey")`, falling back to
`data["links"]["next"]` when the former is falsy. -/
def effPageKey (p : Page) : Option (List Char) :=
  match p.pageKey with
  | some k => if !k.isEmpty then some k else p.linksNext
  | none => p.linksNext

/-- `if not page_key: break` — the loop continues iff the resolved key is truthy. -/
def continueFetch (p : Page) : Bool := truthyOpt (effPageKey p)

/-- The fetch loop of `_get_episode_list`.  `pages` is the sequence of API
responses consumed in cursor order; an exhausted `pages` list models a request
answered with an empty `data` batch.  `all` accumulates `all_episodes`; the
filtered list is recomputed from `all` each iteration as in the source.  The
returned value is the final `filtered_episodes` (before the `[:limit]` cut). -/
def fetchLoop (limit : Nat) : List Page → List Episode → List Episode
  | [], all => all.filter btbKeep
  | p :: rest, all =>
    if (all.filter btbKeep).length < limit then
      if p.data.isEmpty then all.filter btbKeep
      else if continueFetch p then fetchLoop limit rest (all ++ p.data)
      else (all ++ p.data).filter btbKeep
    else all.filter btbKeep

/-- `_get_episode_list`: run the fetch loop and return
`filtered_episodes[:self.limit]`. -/
def getEpisodeList (limit : Nat) (pages : List Page) : List Episode :=
  (fetchLoop limit pages []).take limit

/-- Claim-side vocabulary for C4: the raw episodes reachable through the cursor
chain — page data accumulates until a page comes back empty or without a
usable cursor. -/
def reachableEpisodes : List Page → List Episode
  | [] => []
  | p :: rest =>
    if p.data.isEmpty then []
    else p.data ++ (if continueFetch p then reachableEpisodes rest else [])

/-- Observable events of the fetch loop: an API page request, and a
`time.sleep(self.delay)` call. -/
inductive Ev
  | req
  | sleep
deriving DecidableEq

/-- The event trace of `_get_episode_list`: a `req` for every `session.get`,
a `sleep` for the `time.sleep(self.delay)` at the bottom of the loop body. -/
def fetchTraceLoop (limit : Nat) : List Page → List Episode → List Ev
  | [], all => if (all.filter btbKeep).length < limit then [.req] else []
  | p :: rest, all =>
    if (all.filter btbKeep).length < limit then
      .req :: (if p.data.isEmpty then []
        else if continueFetch p then .sleep :: fetchTraceLoop limit rest (all ++ p.data)
        else [])
    else []

/-- Event trace of a whole `_get_episode_list` call. -/
def fetchTrace (limit : Nat) (pages : List Page) : List Ev := fetchTraceLoop limit pages []

/-! ### `_extract_transcript` (lines 255-335) -/

/-- A classified `span` fragment of the transcript container, in document
order: the class-attribute matching of lines 286-312 assigns each span the
first of the roles speaker / time / text whose class substring it carries, and
`other` ignores the rest. -/
inductive Fragment
  | speaker (t : List Char)
  | time (t : List Char)
  | text (t : List Char)
  | other
deriving DecidableEq

/-- State of the transcript walk: `transcript_lines`, `current_speaker`
(Python `None` and `""` are both falsy, so an unset speaker is modelled by the
empty string) and `new_speaker_found`. -/
structure TState where
  lines : List (List Char)
  currentSpeaker : List Char
  newSpeakerFound : Bool
deriving DecidableEq

/-- `transcript_lines[-1].endswith(c)` for a one-character suffix, guarded by
list nonemptiness. -/
def lastEndsWith (ls : List (List Char)) (c : Char) : Bool :=
  match ls.getLast? with
  | some l => l.getLast? == some c
  | none => false

/-- Processing of one span by the loop body of `_extract_transcript`. -/
def stepFragment (st : TState) : Fragment → TState
  | .speaker t => { st with currentSpeaker := pstrip t, newSpeakerFound := true }
  | .time t =>
    let ts := pstrip t
    if st.newSpeakerFound && !st.currentSpeaker.isEmpty then
      let pre := if !st.lines.isEmpty then st.lines ++ [['\n']] else st.lines
      { lines := pre ++ [st.currentSpeaker ++ ' ' :: ts ++ [':']],
        currentSpeaker := st.currentSpeaker, newSpeakerFound := false }
    else if !st.currentSpeaker.isEmpty then
      let pre := if !st.lines.isEmpty then st.lines ++ [['\n']] else st.lines
      { lines := pre ++ [List.replicate st.currentSpeaker.length ' ' ++ ' ' :: ts ++ [':']],
        currentSpeaker := st.currentSpeaker, newSpeakerFound := st.newSpeakerFound }
    else
      let pre := if !st.lines.isEmpty then st.lines ++ [['\n']] else st.lines
      { lines := pre ++ ["Speaker ".data ++ ts ++ [':']],
        currentSpeaker := st.currentSpeaker, newSpeakerFound := st.newSpeakerFound }
  | .text t =>
    let tx := pstrip t
    if tx.isEmpty then st
    else if !st.lines.isEmpty && lastEndsWith st.lines ':' then
      { st with lines := st.lines ++ ['\n' :: tx] }
    else if !st.lines.isEmpty && !lastEndsWith st.lines '\n' then
      { st with lines := st.lines ++ [' ' :: tx] }
    else
      { st with lines := st.lines ++ [tx] }
  | .other => st

/-- The whole span walk over the container's fragments. -/
def runFragments (frags : List Fragment) : TState :=
  frags.foldl stepFragment ⟨[], [], false⟩

/-- `re.sub(r'\n' ++ "{3,}" ++ r', '\n\n', t)`: every maximal run of `k ≥ 3`
newlines becomes two; shorter runs are untouched, i.e. of every newline run
only the first two characters are kept.  `k` counts the newlines already seen
in the current run. -/
def collapseNL : List Char → Nat → List Char
  | [], _ => []
  | c :: cs, k =>
    if c == '\n' then
      if k < 2 then '\n' :: collapseNL cs (k + 1) else collapseNL cs (k + 1)
    else c :: collapseNL cs 0

/-- First post-processing pass of `_extract_transcript` (line 330). -/
def collapseNewlines (l : List Char) : List Char := collapseNL l 0

/-- Second post-processing pass (line 333),
`re.sub` of pattern `([^.\n])\n([A-Z][a-z]+)` with replacement `\1\n\n\2`:
left-to-right non-overlapping matching; on a match the scan resumes after the
greedy `[a-z]+` run.  Fuel-structural; fuel `l.length` always suffices (the
fuel-0 fallback is never reached then). -/
def insertBlanksF : Nat → List Char → List Char
  | 0, l => l
  | _ + 1, [] => []
  | f + 1, c :: rest =>
    match rest with
    | nl :: u :: rest2 =>
      if nl == '\n' && !(c == '.') && !(c == '\n') && isUpperA u
          && !(rest2.takeWhile isLowerA).isEmpty then
        c :: '\n' :: '\n' :: u ::
          (rest2.takeWhile isLowerA ++ insertBlanksF f (rest2.dropWhile isLowerA))
      else c :: insertBlanksF f rest
    | _ => c :: insertBlanksF f rest

/-- Second post-processing pass of `_extract_transcript` (line 333). -/
def insertBlankLines (l : List Char) : List Char := insertBlanksF l.length l

/-- The sentinel returned when no transcript is found. -/
def sentinelNoTranscript : List Char := "No transcript available.".data

/-- `_extract_transcript`.  `none` models a page without a transcript
container (lines 264-271); `some frags` models the container's spans after
classification.  Lines 326-335: join, strip, the two regex passes, and the
final truthiness check substituting the sentinel. -/
def extractTranscript : Option (List Fragment) → List Char
  | none => sentinelNoTranscript
  | some frags =>
    let st := runFragments frags
    let t := insertBlankLines (collapseNewlines (pstrip st.lines.flatten))
    if t.isEmpty then sentinelNoTranscript else t

/-! ### `_get_existing_episodes` (lines 72-104) and `_save_episode` (389-417) -/

/-- `EpisodeDownloader.VERSION`. -/
def VERSIONs : List Char := "1.3.7".data

/-- The per-file scanning loop of `_get_existing_episodes`: the first element
tracks `url`, the second `version`; the loop stops (Python `break`) as soon as
both are truthy. -/
def scanLines : List (List Char) → Option (List Char) → Option (List Char) →
    Option (List Char) × Option (List Char)
  | [], u, v => (u, v)
  | line :: rest, u, v =>
    let u2 := if startsWith "URL: ".data line then some (pstrip (line.drop 5)) else u
    let v2 := if !startsWith "URL: ".data line
        && startsWith "BTB Downloader Version: ".data line
      then some (pstrip (line.drop 23)) else v
    if truthyOpt u2 && truthyOpt v2 then (u2, v2) else scanLines rest u2 v2

/-- Scan one saved file's contents for its URL and version markers. -/
def scanFile (content : List Char) : Option (List Char) × Option (List Char) :=
  scanLines (splitLines content) none none

/-- Python list membership / `in` on our list-modelled sets. -/
def memB (a : List Char) : List (List Char) → Bool
  | [] => false
  | x :: xs => a == x || memB a xs

/-- Python `set.add` modelled on duplicate-free lists. -/
def insertU (a : List Char) (l : List (List Char)) : List (List Char) :=
  if memB a l then l else a :: l

/-- Contribution of one scanned file to `(existing_episodes, outdated_episodes)`:
`if url: existing.add(url); if version != self.VERSION: outdated.add(url)`. -/
def addFileSets (acc : List (List Char) × List (List Char)) (content : List Char) :
    List (List Char) × List (List Char) :=
  match scanFile content with
  | (some url, v) =>
    if !url.isEmpty then
      (insertU url acc.1, if v ≠ some VERSIONs then insertU url acc.2 else acc.2)
    else acc
  | (none, _) => acc

/-- `_get_existing_episodes` over the directory's `*.txt` files, each given by
its contents. -/
def getExistingEpisodes (files : List (List Char)) :
    List (List Char) × List (List Char) :=
  files.foldl addFileSets ([], [])

/-- The in-memory tracking sets of the Orchestrator. -/
structure DLState where
  existing : List (List Char)
  outdated : List (List Char)
deriving DecidableEq

/-- The skip test of line 447: already downloaded and not outdated. -/
def skipDecision (st : DLState) (url : List Char) : Bool :=
  memB url st.existing && !memB url st.outdated

/-- Tracking-set update after a successful save (lines 467-469). -/
def saveUpdate (st : DLState) (url : List Char) : DLState :=
  ⟨insertU url st.existing, st.outdated.filter (fun x => !(x == url))⟩

/-- Observable per-episode actions of the download loop. -/
inductive Act
  | skip (url : List Char)
  | saved (url : List Char)
  | failed (url : List Char) (msg : List Char)
deriving DecidableEq

/-- The per-episode loop of `download_episodes` (lines 443-478).  `outcome`
models the fallible body of the `try` block (detail-page fetch, extraction and
file write): `.ok` means `_save_episode` completed, `.error m` means some step
raised an exception with message `m`, which the `except` clause catches and
reports before the loop continues.  The tracking sets are updated only after a
successful save, exactly as in the source. -/
def downloadLoop (outcome : Episode → Except (List Char) Unit) :
    List Episode → DLState → DLState × List Act
  | [], st => (st, [])
  | e :: rest, st =>
    let url := buildEpisodeUrl e
    if skipDecision st url then
      let r := downloadLoop outcome rest st
      (r.1, .skip url :: r.2)
    else
      match outcome e with
      | .ok _ =>
        let r := downloadLoop outcome rest (saveUpdate st url)
        (r.1, .saved url :: r.2)
      | .error m =>
        let r := downloadLoop outcome rest st
        (r.1, .failed url m :: r.2)

/-! ## Shared helper lemmas -/

theorem memB_iff (a : List Char) : ∀ l, memB a l = true ↔ a ∈ l := by
  intro l
  induction l with
  | nil => simp [memB]
  | cons x xs ih => simp [memB, ih, List.mem_cons]

theorem mem_insertU (u a : List Char) (l : List (List Char)) :
    u ∈ insertU a l ↔ u = a ∨ u ∈ l := by
  unfold insertU
  by_cases h : memB a l = true
  · simp only [h, if_true]
    constructor
    · exact Or.inr
    · rintro (rfl | h2)
      · exact (memB_iff u l).1 h
      · exact h2
  · simp only [h, if_false, Bool.false_eq_true, List.mem_cons]

theorem getLast?_cons_some {α : Type} (a : α) {l : List α} {c : α}
    (h : l.getLast? = some c) : (a :: l).getLast? = some c := by
  cases l with
  | nil => simp at h
  | cons b bs => rw [List.getLast?_cons_cons]; exact h

theorem exists_getLast?_of_ne_nil {α : Type} {l : List α} (h : l ≠ []) :
    ∃ c, l.getLast? = some c := by
  cases hl : l.getLast? with
  | none => exact absurd (List.getLast?_eq_none_iff.mp hl) h
  | some c => exact ⟨c, rfl⟩

theorem ne_nil_of_getLast?_some {α : Type} {l : List α} {c : α}
    (h : l.getLast? = some c) : l ≠ [] := by
  intro hn; subst hn; simp at h

theorem ne_nil_of_head?_some {α : Type} {l : List α} {c : α}
    (h : l.head? = some c) : l ≠ [] := by
  intro hn; subst hn; simp at h

theorem head?_dropWhileP {α : Type} (p : α → Bool) :
    ∀ (l : List α) (c : α), (l.dropWhile p).head? = some c → p c = false := by
  intro l
  induction l with
  | nil => intro c h; simp [List.dropWhile] at h
  | cons x xs ih =>
    intro c h
    by_cases hx : p x = true
    · rw [List.dropWhile_cons_of_pos hx] at h
      exact ih c h
    · rw [List.dropWhile_cons_of_neg hx] at h
      simp only [List.head?_cons, Option.some.injEq] at h
      subst h
      exact Bool.eq_false_iff.mpr hx

theorem mem_stripP {p : Char → Bool} {l : List Char} {c : Char}
    (h : c ∈ stripP p l) : c ∈ l := by
  unfold stripP at h
  rw [List.mem_reverse] at h
  have h2 : c ∈ (l.dropWhile p).reverse :=
    List.IsSuffix.mem h (List.dropWhile_suffix p)
  rw [List.mem_reverse] at h2
  exact List.IsSuffix.mem h2 (List.dropWhile_suffix p)

theorem head?_stripP {p : Char → Bool} {l : List Char} {c : Char}
    (h : (stripP p l).head? = some c) : p c = false := by
  unfold stripP at h
  rw [List.head?_reverse] at h
  obtain ⟨t, ht⟩ := List.dropWhile_suffix (l := (l.dropWhile p).reverse) p
  have h2 : ((l.dropWhile p).reverse).getLast? = some c := by
    rw [← ht, List.getLast?_append, h]
    rfl
  rw [List.getLast?_reverse] at h2
  exact head?_dropWhileP p l c h2

theorem getLast?_stripP {p : Char → Bool} {l : List Char} {c : Char}
    (h : (stripP p l).getLast? = some c) : p c = false := by
  unfold stripP at h
  rw [List.getLast?_reverse] at h
  exact head?_dropWhileP p _ c h

theorem stripP_eq_nil {p : Char → Bool} {l : List Char}
    (h : stripP p l = []) : ∀ c ∈ l, p c = true := by
  unfold stripP at h
  rw [List.reverse_eq_nil_iff, List.dropWhile_eq_nil_iff] at h
  intro c hc
  have hsplit := List.takeWhile_append_dropWhile (p := p) (l := l)
  rw [← hsplit] at hc
  rcases List.mem_append.mp hc with h1 | h2
  · exact List.mem_takeWhile_imp h1
  · exact h c (by rw [List.mem_reverse]; exact h2)

theorem stripP_ne_nil {p : Char → Bool} {l : List Char} {c : Char}
    (hc : c ∈ l) (hpc : p c = false) : stripP p l ≠ [] := by
  intro h
  have := stripP_eq_nil h c hc
  rw [this] at hpc
  cases hpc

theorem mem_subNonAlnum : ∀ (l : List Char) (b : Bool) (c : Char),
    c ∈ subNonAlnum l b → isLowerAlnum c = true ∨ c = '-' := by
  intro l
  induction l with
  | nil => intro b c h; simp [subNonAlnum] at h
  | cons x xs ih =>
    intro b c h
    rw [subNonAlnum] at h
    by_cases hx : isLowerAlnum x = true
    · rw [if_pos hx] at h
      rcases List.mem_cons.mp h with rfl | h2
      · exact Or.inl hx
      · exact ih false c h2
    · rw [if_neg hx] at h
      cases b with
      | true =>
        rw [if_pos rfl] at h
        exact ih true c h
      | false =>
        simp only [Bool.false_eq_true, if_false] at h
        rcases List.mem_cons.mp h with rfl | h2
        · exact Or.inr rfl
        · exact ih true c h2

theorem mem_collapseHyphens : ∀ (l : List Char) (b : Bool) (c : Char),
    c ∈ collapseHyphens l b → c ∈ l := by
  intro l
  induction l with
  | nil => intro b c h; simp [collapseHyphens] at h
  | cons x xs ih =>
    intro b c h
    rw [collapseHyphens] at h
    by_cases hx : (x == '-') = true
    · rw [if_pos hx] at h
      cases b with
      | true =>
        rw [if_pos rfl] at h
        exact List.mem_cons_of_mem x (ih true c h)
      | false =>
        simp only [Bool.false_eq_true, if_false] at h
        rcases List.mem_cons.mp h with rfl | h2
        · rw [List.mem_cons]; left; exact (beq_iff_eq.mp hx).symm
        · exact List.mem_cons_of_mem x (ih true c h2)
    · rw [if_neg hx] at h
      rcases List.mem_cons.mp h with hxc | h2
      · rw [hxc]; exact List.mem_cons_self x xs
      · exact List.mem_cons_of_mem x (ih false c h2)

theorem collapseHyphens_chain : ∀ (l : List Char) (b : Bool),
    List.Chain' (fun a c => ¬(a = '-' ∧ c = '-')) (collapseHyphens l b)
    ∧ ∀ c, (collapseHyphens l true).head? = some c → c ≠ '-' := by
  intro l
  induction l with
  | nil =>
    intro b
    exact ⟨List.chain'_nil, by intro c h; simp [collapseHyphens] at h⟩
  | cons x xs ih =>
    intro b
    constructor
    · by_cases hx : (x == '-') = true
      · cases b with
        | true =>
          rw [collapseHyphens, if_pos hx, if_pos rfl]
          exact (ih true).1
        | false =>
          rw [collapseHyphens, if_pos hx]
          simp only [Bool.false_eq_true, if_false]
          rw [List.chain'_cons']
          refine ⟨?_, (ih true).1⟩
          intro y hy
          have hy2 := (ih true).2 y hy
          rintro ⟨-, h2⟩
          exact hy2 h2
      · rw [collapseHyphens, if_neg hx]
        rw [List.chain'_cons']
        refine ⟨?_, (ih false).1⟩
        intro y _
        rintro ⟨h1, -⟩
        exact hx (by simp [h1])
    · intro c h
      by_cases hx : (x == '-') = true
      · rw [collapseHyphens, if_pos hx, if_pos rfl] at h
        exact (ih true).2 c h
      · rw [collapseHyphens, if_neg hx] at h
        simp only [List.head?_cons, Option.some.injEq] at h
        subst h
        exact fun hc => hx (by simp [hc])

theorem collapseHyphens_head {l : List Char} {c : Char} (h : l.head? = some c)
    (hc : c ≠ '-') : (collapseHyphens l false).head? = some c := by
  cases l with
  | nil => simp at h
  | cons x xs =>
    simp only [List.head?_cons, Option.some.injEq] at h
    subst h
    rw [collapseHyphens, if_neg (by simp [hc])]
    rfl

theorem collapseHyphens_getLast : ∀ (l : List Char) (c : Char), c ≠ '-' →
    ∀ b, l.getLast? = some c → (collapseHyphens l b).getLast? = some c := by
  intro l
  induction l with
  | nil => intro c _ b h; simp at h
  | cons x xs ih =>
    intro c hc b h
    cases xs with
    | nil =>
      simp only [List.getLast?_singleton, Option.some.injEq] at h
      subst h
      rw [collapseHyphens, if_neg (by simp [hc])]
      rfl
    | cons y ys =>
      have h2 : (y :: ys).getLast? = some c := by rwa [List.getLast?_cons_cons] at h
      by_cases hx : (x == '-') = true
      · cases b with
        | true =>
          rw [collapseHyphens, if_pos hx, if_pos rfl]
          exact ih c hc true h2
        | false =>
          rw [collapseHyphens, if_pos hx]
          simp only [Bool.false_eq_true, if_false]
          exact getLast?_cons_some '-' (ih c hc true h2)
      · rw [collapseHyphens, if_neg hx]
        exact getLast?_cons_some x (ih c hc false h2)

/-! ## Claim C10 -/

/-- Claim C10: for every input string, `_slugify` returns a string containing
only lowercase ASCII letters, digits and hyphens, with no two consecutive
hyphens, and neither starting nor ending with a hyphen (possibly empty). -/
theorem claim_C10_slugify_alphabet (s : List Char) :
    (∀ c ∈ slugify s, isLowerAlnum c = true ∨ c = '-')
    ∧ List.Chain' (fun a b => ¬(a = '-' ∧ b = '-')) (slugify s)
    ∧ (∀ c, (slugify s).head? = some c → c ≠ '-')
    ∧ (∀ c, (slugify s).getLast? = some c → c ≠ '-') := by
  unfold slugify
  refine ⟨?_, (collapseHyphens_chain _ false).1, ?_, ?_⟩
  · intro c hc
    exact mem_subNonAlnum _ false c (mem_stripP (mem_collapseHyphens _ false c hc))
  · intro c hc
    cases hY : stripHyphens (subNonAlnum (pyLower s) false) with
    | nil => rw [hY] at hc; simp [collapseHyphens] at hc
    | cons y ys =>
      have hy : (y == '-') = false := by
        have := head?_stripP (p := fun c => c == '-')
          (l := subNonAlnum (pyLower s) false) (c := y)
        unfold stripHyphens at hY
        exact this (by rw [hY]; rfl)
      have := collapseHyphens_head (l := y :: ys) (c := y) rfl (by simpa using hy)
      rw [hY] at hc
      rw [this] at hc
      cases hc
      simpa using hy
  · intro c hc
    cases hY : stripHyphens (subNonAlnum (pyLower s) false) with
    | nil => rw [hY] at hc; simp [collapseHyphens] at hc
    | cons y ys =>
      obtain ⟨d, hd⟩ := exists_getLast?_of_ne_nil (l := y :: ys) (by simp)
      have hdh : (d == '-') = false := by
        have := getLast?_stripP (p := fun c => c == '-')
          (l := subNonAlnum (pyLower s) false) (c := d)
        unfold stripHyphens at hY
        exact this (by rw [hY]; exact hd)
      have := collapseHyphens_getLast (y :: ys) d (by simpa using hdh) false hd
      rw [hY] at hc
      rw [this] at hc
      cases hc
      simpa using hdh

/-- Claim C10 witness: `_slugify " Hello, World! " = "hello-world"` starts
with `'h'`, which the theorem certifies is not a hyphen. -/
theorem claim_C10_witness : ('h' : Char) ≠ '-' :=
  (claim_C10_slugify_alphabet " Hello, World! ".data).2.2.1 'h' (by decide)

/-! ## Claim C2 -/

/-- Claim C2 counterexample: on fragments
`[Speaker "Jane", Timestamp "00:00", Text "Hello"]` the extractor does not
return `"Jane 00:00:\nHello"` — the capitalized-word post-processing regex
fires on `":\nHello"` and inserts a blank line. -/
theorem claim_C2_counterexample :
    extractTranscript (some [Fragment.speaker "Jane".data,
      Fragment.time "00:00".data, Fragment.text "Hello".data])
      ≠ "Jane 00:00:\nHello".data := by decide

/-- Claim C2 (amended): on fragments
`[Speaker "Jane", Timestamp "00:00", Text "Hello"]` the extractor's output
after all post-processing is exactly `"Jane 00:00:\n\nHello"` (the
capitalized-word regex inserts a blank line after the header, since `':'` is a
non-terminal character and `"Hello"` starts with a capitalized word). -/
theorem claim_C2_extract_example :
    extractTranscript (some [Fragment.speaker "Jane".data,
      Fragment.time "00:00".data, Fragment.text "Hello".data])
      = "Jane 00:00:\n\nHello".data := by decide

/-! ## Claim C3 -/

theorem takeWhile_hyphen_free (x : List Char) (a : List Char)
    (hx : ∀ c ∈ x, c ≠ '-') :
    (x ++ '-' :: a).takeWhile (fun c => !(c == '-')) = x := by
  induction x with
  | nil => simp [List.takeWhile_cons]
  | cons c cs ih =>
    have hc : c ≠ '-' := hx c (List.mem_cons_self c cs)
    rw [List.cons_append, List.takeWhile_cons, if_pos (by simp [hc])]
    rw [ih (fun d hd => hx d (List.mem_cons_of_mem c hd))]

theorem hyphen_tail_inj (g₁ g₂ x y : List Char)
    (hx : ∀ c ∈ x, c ≠ '-') (hy : ∀ c ∈ y, c ≠ '-')
    (h : g₁ ++ ("-".data ++ (x ++ "/".data)) = g₂ ++ ("-".data ++ (y ++ "/".data))) :
    x = y := by
  have h5 := congrArg List.reverse h
  simp only [List.reverse_append, List.append_assoc] at h5
  have hD : "/".data.reverse = ['/'] := rfl
  have hB : "-".data.reverse = ['-'] := rfl
  rw [hD, hB] at h5
  simp only [List.singleton_append] at h5
  have h6 : x.reverse ++ '-' :: g₁.reverse = y.reverse ++ '-' :: g₂.reverse := by
    injection h5
  have hx2 : ∀ c ∈ x.reverse, c ≠ '-' := fun c hc => hx c (List.mem_reverse.mp hc)
  have hy2 : ∀ c ∈ y.reverse, c ≠ '-' := fun c hc => hy c (List.mem_reverse.mp hc)
  have h7 := congrArg (List.takeWhile (fun c => !(c == '-'))) h6
  rw [takeWhile_hyphen_free _ _ hx2, takeWhile_hyphen_free _ _ hy2] at h7
  exact List.reverse_inj.mp h7

/-- Claim C3 counterexample: two episode dictionaries with distinct (opaque
string) identifier fields whose URLs collide: title `"a"` with id `"b-c"` and
title `"a-b"` with id `"c"` both map to `.../episode/a-b-c/`. -/
theorem claim_C3_counterexample :
    buildEpisodeUrl
        ⟨some "ps".data, some (JVal.s "1".data), some (JVal.s "b-c".data),
          some "a".data, none, none, none⟩
      = buildEpisodeUrl
        ⟨some "ps".data, some (JVal.s "1".data), some (JVal.s "c".data),
          some "a-b".data, none, none, none⟩
    ∧ (some (JVal.s "b-c".data) : Option JVal) ≠ some (JVal.s "c".data) := by
  constructor
  · decide
  · decide

/-- Claim C3 (amended): `_build_episode_url` is a pure function (stable across
repeated application), and it is injective over episodes of the same podcast
whose `id` fields render to distinct hyphen-free strings — which covers all
integer ids; for opaque string ids containing hyphens the injectivity claimed
by the spec fails (see the counterexample). -/
theorem claim_C3_url_stable_injective :
    (∀ e : Episode, buildEpisodeUrl e = buildEpisodeUrl e)
    ∧ ∀ e₁ e₂ : Episode, e₁.podcastSlug = e₂.podcastSlug →
        e₁.podcastId = e₂.podcastId →
        (∀ c ∈ renderOpt e₁.id, c ≠ '-') → (∀ c ∈ renderOpt e₂.id, c ≠ '-') →
        renderOpt e₁.id ≠ renderOpt e₂.id →
        buildEpisodeUrl e₁ ≠ buildEpisodeUrl e₂ := by
  refine ⟨fun e => rfl, ?_⟩
  intro e₁ e₂ hslug hpid h₁ h₂ hne h
  apply hne
  unfold buildEpisodeUrl at h
  rw [hslug, hpid] at h
  simp only [List.append_assoc] at h
  have h2 := List.append_cancel_left h
  have h3 := List.append_cancel_left h2
  have h4 := List.append_cancel_left h3
  have h5 := List.append_cancel_left h4
  have h6 := List.append_cancel_left h5
  exact hyphen_tail_inj _ _ _ _ h₁ h₂ h6

/-- Claim C3 witness: two same-podcast episodes with hyphen-free string ids
`"1"` and `"2"` get distinct URLs. -/
theorem claim_C3_witness :
    buildEpisodeUrl
        ⟨some "ps".data, some (JVal.s "7".data), some (JVal.s "1".data),
          some "a".data, none, none, none⟩
      ≠ buildEpisodeUrl
        ⟨some "ps".data, some (JVal.s "7".data), some (JVal.s "2".data),
          some "b".data, none, none, none⟩ :=
  claim_C3_url_stable_injective.2 _ _ rfl rfl (by decide) (by decide) (by decide)

/-! ## Claims C4 and C8: the fetch loop -/

theorem fetchLoop_exhaust (limit : Nat) :
    ∀ (pages : List Page) (all : List Episode),
      ((all ++ reachableEpisodes pages).filter btbKeep).length < limit →
      fetchLoop limit pages all = (all ++ reachableEpisodes pages).filter btbKeep := by
  intro pages
  induction pages with
  | nil =>
    intro all _
    simp only [reachableEpisodes, List.append_nil]
    rfl
  | cons p rest ih =>
    intro all h
    have hcond : (all.filter btbKeep).length < limit := by
      have hsplit : ((all ++ reachableEpisodes (p :: rest)).filter btbKeep).length
          = (all.filter btbKeep).length
            + ((reachableEpisodes (p :: rest)).filter btbKeep).length := by
        rw [List.filter_append, List.length_append]
      omega
    by_cases hd : p.data.isEmpty = true
    · simp only [fetchLoop, if_pos hcond, if_pos hd]
      rw [reachableEpisodes, if_pos hd, List.append_nil]
    · by_cases hk : continueFetch p = true
      · simp only [fetchLoop, if_pos hcond, if_neg hd, if_pos hk]
        rw [reachableEpisodes, if_neg hd, if_pos hk, ← List.append_assoc]
        apply ih
        rw [List.append_assoc]
        rw [reachableEpisodes, if_neg hd, if_pos hk] at h
        exact h
      · simp only [fetchLoop, if_pos hcond, if_neg hd, if_neg hk]
        rw [reachableEpisodes, if_neg hd, if_neg hk, List.append_nil]

theorem fetchLoop_ge (limit : Nat) :
    ∀ (pages : List Page) (all : List Episode),
      limit ≤ ((all ++ reachableEpisodes pages).filter btbKeep).length →
      limit ≤ (fetchLoop limit pages all).length := by
  intro pages
  induction pages with
  | nil =>
    intro all h
    simp only [reachableEpisodes, List.append_nil] at h
    simpa [fetchLoop] using h
  | cons p rest ih =>
    intro all h
    by_cases hcond : (all.filter btbKeep).length < limit
    · by_cases hd : p.data.isEmpty = true
      · rw [reachableEpisodes, if_pos hd, List.append_nil] at h
        simpa only [fetchLoop, if_pos hcond, if_pos hd] using h
      · by_cases hk : continueFetch p = true
        · simp only [fetchLoop, if_pos hcond, if_neg hd, if_pos hk]
          apply ih
          rw [reachableEpisodes, if_neg hd, if_pos hk] at h
          rwa [← List.append_assoc] at h
        · simp only [fetchLoop, if_pos hcond, if_neg hd, if_neg hk]
          rw [reachableEpisodes, if_neg hd, if_neg hk, List.append_nil] at h
          exact h
    · simp only [fetchLoop, if_neg hcond]
      omega

/-- Claim C4: the catalog fetcher returns at most `limit` items; exactly
`limit` when at least `limit` filtered items are reachable through the cursor
chain; and all filtered items fetched so far, in API order, when the feed is
exhausted first. -/
theorem claim_C4_fetch_limit (pages : List Page) (limit : Nat) :
    (getEpisodeList limit pages).length ≤ limit
    ∧ (limit ≤ ((reachableEpisodes pages).filter btbKeep).length →
        (getEpisodeList limit pages).length = limit)
    ∧ (((reachableEpisodes pages).filter btbKeep).length < limit →
        getEpisodeList limit pages = (reachableEpisodes pages).filter btbKeep) := by
  refine ⟨?_, ?_, ?_⟩
  · unfold getEpisodeList
    rw [List.length_take]
    omega
  · intro h
    unfold getEpisodeList
    rw [List.length_take]
    have := fetchLoop_ge limit pages [] (by simpa using h)
    omega
  · intro h
    unfold getEpisodeList
    rw [fetchLoop_exhaust limit pages [] (by simpa using h)]
    simp only [List.nil_append]
    exact List.take_of_length_le (le_of_lt h)

/-- Claim C4 witness: two one-episode pages linked by a cursor, limit 1 — the
fetcher returns exactly one episode. -/
theorem claim_C4_witness :
    (getEpisodeList 1 [⟨[⟨none, none, none, some "a".data, none, none, none⟩],
        some "k".data, none⟩,
      ⟨[⟨none, none, none, some "b".data, none, none, none⟩], none, none⟩]).length
      = 1 :=
  (claim_C4_fetch_limit _ 1).2.1 (by decide)

theorem traceLoop_nil_le (limit : Nat) (pages : List Page) (all : List Episode)
    (h : fetchTraceLoop limit pages all = []) :
    limit ≤ (all.filter btbKeep).length := by
  cases pages with
  | nil =>
    by_cases hcond : (all.filter btbKeep).length < limit
    · rw [fetchTraceLoop, if_pos hcond] at h; cases h
    · omega
  | cons p rest =>
    by_cases hcond : (all.filter btbKeep).length < limit
    · rw [fetchTraceLoop, if_pos hcond] at h; cases h
    · omega

theorem fetchLoop_of_ge (limit : Nat) (pages : List Page) (all : List Episode)
    (h : limit ≤ (all.filter btbKeep).length) :
    fetchLoop limit pages all = all.filter btbKeep := by
  cases pages with
  | nil => rfl
  | cons p rest => rw [fetchLoop, if_neg (by omega)]

theorem traceLoop_no_bad_sleep (limit : Nat) :
    ∀ (pages : List Page) (all : List Episode),
      (fetchTraceLoop limit pages all).head? ≠ some Ev.sleep
      ∧ List.Chain' (fun a b => b = Ev.sleep → a = Ev.req)
          (fetchTraceLoop limit pages all) := by
  intro pages
  induction pages with
  | nil =>
    intro all
    by_cases hcond : (all.filter btbKeep).length < limit
    · rw [fetchTraceLoop, if_pos hcond]
      exact ⟨by simp, List.chain'_singleton _⟩
    · rw [fetchTraceLoop, if_neg hcond]
      exact ⟨by simp, List.chain'_nil⟩
  | cons p rest ih =>
    intro all
    by_cases hcond : (all.filter btbKeep).length < limit
    · rw [fetchTraceLoop, if_pos hcond]
      by_cases hd : p.data.isEmpty = true
      · rw [if_pos hd]
        exact ⟨by simp, List.chain'_singleton _⟩
      · rw [if_neg hd]
        by_cases hk : continueFetch p = true
        · rw [if_pos hk]
          refine ⟨by simp, ?_⟩
          rw [List.chain'_cons]
          refine ⟨fun _ => rfl, ?_⟩
          rw [List.chain'_cons']
          refine ⟨?_, (ih (all ++ p.data)).2⟩
          intro y hy hsleep
          exact absurd (by rw [hy, hsleep]) (ih (all ++ p.data)).1
        · rw [if_neg hk]
          exact ⟨by simp, List.chain'_singleton _⟩
    · rw [fetchTraceLoop, if_neg hcond]
      exact ⟨by simp, List.chain'_nil⟩

theorem traceLoop_last_sleep (limit : Nat) :
    ∀ (pages : List Page) (all : List Episode),
      (fetchTraceLoop limit pages all).getLast? = some Ev.sleep →
      limit ≤ (fetchLoop limit pages all).length := by
  intro pages
  induction pages with
  | nil =>
    intro all h
    by_cases hcond : (all.filter btbKeep).length < limit
    · rw [fetchTraceLoop, if_pos hcond] at h
      simp at h
    · rw [fetchTraceLoop, if_neg hcond] at h
      simp at h
  | cons p rest ih =>
    intro all h
    by_cases hcond : (all.filter btbKeep).length < limit
    · rw [fetchTraceLoop, if_pos hcond] at h
      by_cases hd : p.data.isEmpty = true
      · rw [if_pos hd] at h
        simp at h
      · rw [if_neg hd] at h
        by_cases hk : continueFetch p = true
        · rw [if_pos hk] at h
          rw [fetchLoop, if_pos hcond, if_neg hd, if_pos hk]
          cases hrec : fetchTraceLoop limit rest (all ++ p.data) with
          | nil =>
            have hle := traceLoop_nil_le limit rest (all ++ p.data) hrec
            rw [fetchLoop_of_ge limit rest (all ++ p.data) hle]
            exact hle
          | cons t ts =>
            apply ih (all ++ p.data)
            rw [hrec] at h
            rw [hrec]
            rwa [List.getLast?_cons_cons, List.getLast?_cons_cons] at h
        · rw [if_neg hk] at h
          simp at h
    · rw [fetchTraceLoop, if_neg hcond] at h
      simp at h

/-- Claim C8 counterexample: a single page carrying one kept episode and a
next-page cursor, with `limit = 1`: the final event of the fetcher's trace is
a `sleep`, i.e. the fetcher does sleep after the request that terminates the
loop (the `time.sleep` at line 247 runs before the `while` condition is
re-checked). -/
theorem claim_C8_counterexample :
    (fetchTrace 1 [⟨[⟨none, none, none, some "ep one".data, none, none, none⟩],
        some "k".data, none⟩]).getLast? = some Ev.sleep := by decide

/-- Claim C8 (amended): every sleep of the fetch loop happens immediately
after a page request (never first, never two in a row); a request that
terminates the loop by exhaustion (empty page or missing cursor) is never
followed by a sleep; but when the page just fetched brings the filtered count
to `limit` while carrying a cursor, one sleep does occur after that final
request — a trailing sleep only happens when the fetch comes back with a full
`limit`-length result. -/
theorem claim_C8_sleep_placement (limit : Nat) (pages : List Page) :
    (fetchTrace limit pages).head? ≠ some Ev.sleep
    ∧ List.Chain' (fun a b => b = Ev.sleep → a = Ev.req) (fetchTrace limit pages)
    ∧ ((fetchTrace limit pages).getLast? = some Ev.sleep →
        (getEpisodeList limit pages).length = limit) := by
  refine ⟨(traceLoop_no_bad_sleep limit pages []).1,
    (traceLoop_no_bad_sleep limit pages []).2, ?_⟩
  intro h
  have h2 := traceLoop_last_sleep limit pages [] h
  unfold getEpisodeList
  rw [List.length_take]
  omega

/-- Claim C8 witness: on the counterexample input the trailing sleep indeed
coincides with a full one-element result. -/
theorem claim_C8_witness :
    (getEpisodeList 1 [⟨[⟨none, none, none, some "ep one".data, none, none,
        none⟩], some "k".data, none⟩]).length = 1 :=
  (claim_C8_sleep_placement 1 _).2.2 (by decide)

/-! ## Claim C5: `_get_existing_episodes` -/

theorem addFileSets_mem_fst (acc : List (List Char) × List (List Char))
    (f : List Char) (u : List Char) :
    u ∈ (addFileSets acc f).1 ↔
      u ∈ acc.1 ∨ ((scanFile f).1 = some u ∧ u ≠ []) := by
  unfold addFileSets
  split
  · rename_i url v heq
    rw [heq]
    simp only [Option.some.injEq]
    by_cases hu : url.isEmpty = true
    · rw [if_neg (by simp [hu])]
      have hurl : url = [] := List.isEmpty_iff.mp hu
      subst hurl
      constructor
      · exact Or.inl
      · rintro (h | ⟨rfl, hne⟩)
        · exact h
        · exact absurd rfl hne
    · rw [if_pos (by simp [hu])]
      simp only [mem_insertU]
      constructor
      · rintro (rfl | h)
        · exact Or.inr ⟨rfl, by simpa [List.isEmpty_iff] using hu⟩
        · exact Or.inl h
      · rintro (h | ⟨rfl, _⟩)
        · exact Or.inr h
        · exact Or.inl rfl
  · rename_i snd heq
    rw [heq]
    simp

theorem addFileSets_mem_snd (acc : List (List Char) × List (List Char))
    (f : List Char) (u : List Char) :
    u ∈ (addFileSets acc f).2 ↔
      u ∈ acc.2 ∨ ((scanFile f).1 = some u ∧ u ≠ []
        ∧ (scanFile f).2 ≠ some VERSIONs) := by
  unfold addFileSets
  split
  · rename_i url v heq
    rw [heq]
    simp only [Option.some.injEq]
    by_cases hu : url.isEmpty = true
    · rw [if_neg (by simp [hu])]
      have hurl : url = [] := List.isEmpty_iff.mp hu
      subst hurl
      constructor
      · exact Or.inl
      · rintro (h | ⟨rfl, hne, -⟩)
        · exact h
        · exact absurd rfl hne
    · rw [if_pos (by simp [hu])]
      by_cases hv : v ≠ some VERSIONs
      · rw [if_pos hv]
        simp only [mem_insertU]
        constructor
        · rintro (rfl | h)
          · exact Or.inr ⟨rfl, by simpa [List.isEmpty_iff] using hu, hv⟩
          · exact Or.inl h
        · rintro (h | ⟨rfl, -, -⟩)
          · exact Or.inr h
          · exact Or.inl rfl
      · rw [if_neg hv]
        constructor
        · exact Or.inl
        · rintro (h | ⟨rfl, -, hv2⟩)
          · exact h
          · exact absurd hv2 hv
  · rename_i snd heq
    rw [heq]
    simp

theorem getExisting_fold_mem :
    ∀ (files : List (List Char)) (acc : List (List Char) × List (List Char))
      (u : List Char),
      (u ∈ (files.foldl addFileSets acc).1 ↔
        u ∈ acc.1 ∨ ∃ f ∈ files, (scanFile f).1 = some u ∧ u ≠ [])
      ∧ (u ∈ (files.foldl addFileSets acc).2 ↔
        u ∈ acc.2 ∨ ∃ f ∈ files, (scanFile f).1 = some u ∧ u ≠ []
          ∧ (scanFile f).2 ≠ some VERSIONs) := by
  intro files
  induction files with
  | nil => intro acc u; simp
  | cons f fs ih =>
    intro acc u
    rw [List.foldl_cons]
    constructor
    · rw [(ih (addFileSets acc f) u).1, addFileSets_mem_fst]
      simp only [List.mem_cons]
      constructor
      · rintro ((h | hf) | ⟨g, hg, hp⟩)
        · exact Or.inl h
        · exact Or.inr ⟨f, Or.inl rfl, hf⟩
        · exact Or.inr ⟨g, Or.inr hg, hp⟩
      · rintro (h | ⟨g, (rfl | hg), hp⟩)
        · exact Or.inl (Or.inl h)
        · exact Or.inl (Or.inr hp)
        · exact Or.inr ⟨g, hg, hp⟩
    · rw [(ih (addFileSets acc f) u).2, addFileSets_mem_snd]
      simp only [List.mem_cons]
      constructor
      · rintro ((h | hf) | ⟨g, hg, hp⟩)
        · exact Or.inl h
        · exact Or.inr ⟨f, Or.inl rfl, hf⟩
        · exact Or.inr ⟨g, Or.inr hg, hp⟩
      · rintro (h | ⟨g, (rfl | hg), hp⟩)
        · exact Or.inl (Or.inl h)
        · exact Or.inl (Or.inr hp)
        · exact Or.inr ⟨g, hg, hp⟩

/-- Claim C5 counterexample: the file consisting of the bare marker line
`"URL: "` does have a `"URL: "` marker, yet `_get_existing_episodes` adds its
(empty) URL to neither set, because `if url:` treats the empty string as
falsy — so `existing_episodes` does not contain the URL of every file that
has a URL marker line. -/
theorem claim_C5_counterexample :
    startsWith "URL: ".data "URL: ".data = true
    ∧ getExistingEpisodes ["URL: ".data] = ([], []) := by
  constructor
  · decide
  · decide

/-- Claim C5 (amended): `existing_episodes` contains exactly the URLs
recovered from files whose `"URL: "` marker carries a nonempty (truthy)
payload; `outdated_episodes` is the subset of those whose recovered
`"BTB Downloader Version: "` value is absent or differs from the current
`VERSION`; a file with no URL marker — or an empty one — contributes to
neither set. -/
theorem claim_C5_archive_sets (files : List (List Char)) :
    (∀ u, u ∈ (getExistingEpisodes files).1 ↔
      ∃ f ∈ files, (scanFile f).1 = some u ∧ u ≠ [])
    ∧ (∀ u, u ∈ (getExistingEpisodes files).2 ↔
      ∃ f ∈ files, (scanFile f).1 = some u ∧ u ≠ []
        ∧ (scanFile f).2 ≠ some VERSIONs) := by
  constructor
  · intro u
    have := (getExisting_fold_mem files ([], []) u).1
    simpa using this
  · intro u
    have := (getExisting_fold_mem files ([], []) u).2
    simpa using this

/-- Claim C5 witness: a single well-formed record file puts its URL into
`existing_episodes`. -/
theorem claim_C5_witness :
    "http://x".data ∈
      (getExistingEpisodes
        ["URL: http://x\nBTB Downloader Version: 1.3.7\n".data]).1 :=
  ((claim_C5_archive_sets _).1 "http://x".data).mpr (by decide)

/-! ## Claims C9 and C6: the download loop -/

/-- Claim C9: `outdated_episodes ⊆ existing_episodes` holds as
`_get_existing_episodes` builds the two sets, is preserved by every run of the
download loop, and after a successful save the URL is in the existing set and
out of the outdated set. -/
theorem claim_C9_outdated_subset :
    (∀ files, ∀ u ∈ (getExistingEpisodes files).2,
      u ∈ (getExistingEpisodes files).1)
    ∧ (∀ (outcome : Episode → Except (List Char) Unit) eps st,
        (∀ u ∈ st.outdated, u ∈ st.existing) →
        ∀ u ∈ (downloadLoop outcome eps st).1.outdated,
          u ∈ (downloadLoop outcome eps st).1.existing)
    ∧ (∀ st url, url ∈ (saveUpdate st url).existing
        ∧ url ∉ (saveUpdate st url).outdated) := by
  refine ⟨?_, ?_, ?_⟩
  · intro files u hu
    have h2 := (getExisting_fold_mem files ([], []) u).2.mp hu
    rcases h2 with h2 | ⟨f, hf, hf1, hf2, -⟩
    · simp at h2
    · exact (getExisting_fold_mem files ([], []) u).1.mpr (Or.inr ⟨f, hf, hf1, hf2⟩)
  · intro outcome eps
    induction eps with
    | nil => intro st h u hu; exact h u hu
    | cons e rest ih =>
      intro st h u
      simp only [downloadLoop]
      split
      · exact ih st h u
      · split
        · intro hu
          apply ih (saveUpdate st (buildEpisodeUrl e)) ?_ u hu
          intro v hv
          have hv2 := List.mem_filter.mp hv
          exact (mem_insertU v (buildEpisodeUrl e) st.existing).mpr
            (Or.inr (h v hv2.1))
        · exact ih st h u
  · intro st url
    constructor
    · exact (mem_insertU url url st.existing).mpr (Or.inl rfl)
    · intro hu
      have := (List.mem_filter.mp hu).2
      simp at this

/-- Claim C9 witness: the loop on an empty candidate list preserves the
subset invariant for the concrete state `({a}, {a})`. -/
theorem claim_C9_witness :
    "a".data ∈ (downloadLoop (fun _ => Except.ok ()) []
      ⟨["a".data], ["a".data]⟩).1.existing :=
  claim_C9_outdated_subset.2.1 (fun _ => Except.ok ()) []
    ⟨["a".data], ["a".data]⟩ (fun _ hu => hu) "a".data (by decide)

/-- Claim C6: an exception while processing one episode is caught: the loop
always produces one action per candidate (a failure never truncates the
batch), and on a failing episode it records the failure with the episode's
URL and error message and continues on the remaining episodes with the
tracking sets unchanged. -/
theorem claim_C6_errors_do_not_abort :
    (∀ (outcome : Episode → Except (List Char) Unit) eps st,
      ((downloadLoop outcome eps st).2).length = eps.length)
    ∧ (∀ (outcome : Episode → Except (List Char) Unit) e rest st m,
        outcome e = .error m →
        skipDecision st (buildEpisodeUrl e) = false →
        downloadLoop outcome (e :: rest) st =
          ((downloadLoop outcome rest st).1,
            .failed (buildEpisodeUrl e) m :: (downloadLoop outcome rest st).2)) := by
  constructor
  · intro outcome eps
    induction eps with
    | nil => intro st; rfl
    | cons e rest ih =>
      intro st
      simp only [downloadLoop]
      split
      · simp [ih]
      · split
        · simp [ih]
        · simp [ih]
  · intro outcome e rest st m ho hns
    simp only [downloadLoop]
    rw [if_neg (by simp [hns]), ho]

/-- Claim C6 witness: a failing episode on an empty archive yields exactly one
`failed` action carrying its URL and message, with the state unchanged. -/
theorem claim_C6_witness :
    downloadLoop (fun _ => Except.error "boom".data)
        [⟨none, none, none, none, none, none, none⟩] ⟨[], []⟩
      = (⟨[], []⟩,
        [Act.failed (buildEpisodeUrl ⟨none, none, none, none, none, none, none⟩)
          "boom".data]) :=
  claim_C6_errors_do_not_abort.2 (fun _ => Except.error "boom".data)
    ⟨none, none, none, none, none, none, none⟩ [] ⟨[], []⟩ "boom".data rfl rfl

/-! ## Claim C7: the transcript sentinel and trimming -/

theorem insertBlanksF_nil : ∀ f : Nat, insertBlanksF f [] = [] := by
  intro f
  cases f with
  | zero => rfl
  | succ f => rfl

theorem insertBlanksF_cons (f : Nat) (c : Char) (rest : List Char) :
    ∃ t, insertBlanksF f (c :: rest) = c :: t := by
  cases f with
  | zero => exact ⟨rest, rfl⟩
  | succ f =>
    cases rest with
    | nil => exact ⟨insertBlanksF f [], rfl⟩
    | cons nl rest1 =>
      cases rest1 with
      | nil => exact ⟨insertBlanksF f [nl], rfl⟩
      | cons u rest2 =>
        simp only [insertBlanksF]
        split
        · exact ⟨_, rfl⟩
        · exact ⟨_, rfl⟩

theorem insertBlanksF_head? (f : Nat) (l : List Char) :
    (insertBlanksF f l).head? = l.head? := by
  cases l with
  | nil => rw [insertBlanksF_nil]
  | cons c rest =>
    obtain ⟨t, ht⟩ := insertBlanksF_cons f c rest
    rw [ht]
    rfl

theorem getLast?_cons_of_ne_nil {α : Type} (a : α) {l : List α} (h : l ≠ []) :
    (a :: l).getLast? = l.getLast? := by
  cases l with
  | nil => exact absurd rfl h
  | cons b bs => rw [List.getLast?_cons_cons]

theorem insertBlanksF_getLast? : ∀ (f : Nat) (l : List Char), l ≠ [] →
    (insertBlanksF f l).getLast? = l.getLast? := by
  intro f
  induction f with
  | zero => intro l _; rfl
  | succ f ih =>
    intro l hl
    cases l with
    | nil => exact absurd rfl hl
    | cons c rest =>
      cases rest with
      | nil =>
        have h1 : insertBlanksF (f + 1) [c] = c :: insertBlanksF f [] := rfl
        rw [h1, insertBlanksF_nil]
      | cons nl rest1 =>
        cases rest1 with
        | nil =>
          have h1 : insertBlanksF (f + 1) [c, nl] = c :: insertBlanksF f [nl] := rfl
          have h2 : (insertBlanksF f [nl]).getLast? = some nl := by
            rw [ih [nl] (by simp)]
            rfl
          rw [h1, getLast?_cons_some c h2]
          rfl
        | cons u rest2 =>
          simp only [insertBlanksF]
          split
          · rename_i hcnd
            have htk : rest2.takeWhile isLowerA ≠ [] := by
              simp only [Bool.and_eq_true, Bool.not_eq_true'] at hcnd
              intro hk
              rw [hk] at hcnd
              simp at hcnd
            have hr2 : rest2 ≠ [] := by
              intro hk
              subst hk
              exact htk rfl
            have hsplit : rest2.takeWhile isLowerA ++ rest2.dropWhile isLowerA
                = rest2 := List.takeWhile_append_dropWhile isLowerA rest2
            rw [getLast?_cons_of_ne_nil c (by simp),
              List.getLast?_cons_cons, List.getLast?_cons_cons,
              getLast?_cons_of_ne_nil u (by simp [htk]),
              List.getLast?_cons_cons, List.getLast?_cons_cons,
              getLast?_cons_of_ne_nil u hr2]
            cases hdr : rest2.dropWhile isLowerA with
            | nil =>
              rw [insertBlanksF_nil, List.append_nil]
              conv_rhs => rw [← hsplit, hdr, List.append_nil]
            | cons d ds =>
              have hrec := ih (d :: ds) (by simp)
              obtain ⟨g, hg⟩ := exists_getLast?_of_ne_nil
                (l := d :: ds) (by simp)
              rw [List.getLast?_append, hrec, hg]
              conv_rhs => rw [← hsplit, hdr, List.getLast?_append, hg]
          · rename_i hcnd
            have hrec := ih (nl :: u :: rest2) (by simp)
            obtain ⟨g, hg⟩ := exists_getLast?_of_ne_nil
              (l := nl :: u :: rest2) (by simp)
            rw [getLast?_cons_of_ne_nil c
                (ne_nil_of_getLast?_some (hrec.trans hg)),
              hrec, hg, List.getLast?_cons_cons, hg]

theorem collapseNL_head {l : List Char} {c : Char} (h : l.head? = some c)
    (hc : c ≠ '\n') : (collapseNL l 0).head? = some c := by
  cases l with
  | nil => simp at h
  | cons x xs =>
    simp only [List.head?_cons, Option.some.injEq] at h
    subst h
    simp only [collapseNL]
    rw [if_neg (by simp [hc])]
    rfl

theorem collapseNL_getLast : ∀ (l : List Char) (c : Char), c ≠ '\n' →
    ∀ k, l.getLast? = some c → (collapseNL l k).getLast? = some c := by
  intro l
  induction l with
  | nil => intro c _ k h; simp at h
  | cons x xs ih =>
    intro c hc k h
    cases xs with
    | nil =>
      simp only [List.getLast?_singleton, Option.some.injEq] at h
      subst h
      simp only [collapseNL]
      rw [if_neg (by simp [hc])]
      rfl
    | cons y ys =>
      have h2 : (y :: ys).getLast? = some c := by
        rwa [List.getLast?_cons_cons] at h
      simp only [collapseNL]
      by_cases hx : (x == '\n') = true
      · rw [if_pos hx]
        by_cases hk : k < 2
        · rw [if_pos hk]
          exact getLast?_cons_some '\n' (ih c hc (k + 1) h2)
        · rw [if_neg hk]
          exact ih c hc (k + 1) h2
      · rw [if_neg hx]
        exact getLast?_cons_some x (ih c hc 0 h2)

theorem stepFragment_ink (st : TState) (fr : Fragment)
    (h : st.lines = [] ∨ ∃ c ∈ st.lines.flatten, isPySpace c = false) :
    (stepFragment st fr).lines = []
      ∨ ∃ c ∈ (stepFragment st fr).lines.flatten, isPySpace c = false := by
  cases fr with
  | speaker t => exact h
  | other => exact h
  | time t =>
    right
    simp only [stepFragment]
    split
    · exact ⟨':', List.mem_flatten.mpr
        ⟨_, List.mem_append_right _ (List.mem_singleton.mpr rfl), by simp⟩,
        by decide⟩
    · split
      · exact ⟨':', List.mem_flatten.mpr
          ⟨_, List.mem_append_right _ (List.mem_singleton.mpr rfl), by simp⟩,
          by decide⟩
      · exact ⟨':', List.mem_flatten.mpr
          ⟨_, List.mem_append_right _ (List.mem_singleton.mpr rfl), by simp⟩,
          by decide⟩
  | text t =>
    simp only [stepFragment]
    by_cases ht : (pstrip t).isEmpty = true
    · rw [if_pos ht]
      exact h
    · rw [if_neg ht]
      obtain ⟨c0, t0, hct⟩ : ∃ c0 t0, pstrip t = c0 :: t0 := by
        cases hpt : pstrip t with
        | nil => rw [hpt] at ht; simp at ht
        | cons a b => exact ⟨a, b, rfl⟩
      have hc0 : isPySpace c0 = false :=
        head?_stripP (p := isPySpace) (l := t) (by rw [show pstrip t = stripP isPySpace t from rfl] at hct; rw [hct]; rfl)
      right
      split
      · exact ⟨c0, List.mem_flatten.mpr
          ⟨_, List.mem_append_right _ (List.mem_singleton.mpr rfl),
            by simp [hct]⟩, hc0⟩
      · split
        · exact ⟨c0, List.mem_flatten.mpr
            ⟨_, List.mem_append_right _ (List.mem_singleton.mpr rfl),
              by simp [hct]⟩, hc0⟩
        · exact ⟨c0, List.mem_flatten.mpr
            ⟨_, List.mem_append_right _ (List.mem_singleton.mpr rfl),
              by simp [hct]⟩, hc0⟩

theorem runFragments_ink : ∀ (frags : List Fragment) (st : TState),
    (st.lines = [] ∨ ∃ c ∈ st.lines.flatten, isPySpace c = false) →
    ((frags.foldl stepFragment st).lines = []
      ∨ ∃ c ∈ (frags.foldl stepFragment st).lines.flatten,
          isPySpace c = false) := by
  intro frags
  induction frags with
  | nil => intro st h; exact h
  | cons fr rest ih => intro st h; exact ih _ (stepFragment_ink st fr h)

theorem extract_sentinel_of_no_lines (frags : List Fragment)
    (h : (runFragments frags).lines = []) :
    extractTranscript (some frags) = sentinelNoTranscript := by
  simp only [extractTranscript, h]
  decide

/-- Claim C7 counterexample: on the single fragment
`Text "No transcript available."` the container yields emitted text (one
transcript line), yet the extractor still returns the sentinel string — so
the sentinel is not returned *exactly* when no container is found or no text
is emitted. -/
theorem claim_C7_counterexample :
    extractTranscript (some [Fragment.text sentinelNoTranscript])
        = sentinelNoTranscript
    ∧ (runFragments [Fragment.text sentinelNoTranscript]).lines ≠ [] := by
  constructor
  · decide
  · decide

/-- Claim C7 (amended): the extractor returns the sentinel
`"No transcript available."` when no transcript container is found, and when
the container's walk emits no transcript lines at all; on every input the
returned string is nonempty and carries no leading or trailing whitespace
(the returned text can coincide with the sentinel string if the transcript
happens to spell it out, which is why "exactly when" fails). -/
theorem claim_C7_sentinel_or_trimmed :
    extractTranscript none = sentinelNoTranscript
    ∧ (∀ frags, (runFragments frags).lines = [] →
        extractTranscript (some frags) = sentinelNoTranscript)
    ∧ (∀ inp, extractTranscript inp ≠ []
        ∧ (∀ c, (extractTranscript inp).head? = some c → isPySpace c = false)
        ∧ (∀ c, (extractTranscript inp).getLast? = some c →
            isPySpace c = false)) := by
  refine ⟨rfl, extract_sentinel_of_no_lines, ?_⟩
  intro inp
  have hsent : (sentinelNoTranscript ≠ []
      ∧ (∀ c, sentinelNoTranscript.head? = some c → isPySpace c = false)
      ∧ (∀ c, sentinelNoTranscript.getLast? = some c →
          isPySpace c = false)) := by
    refine ⟨by decide, ?_, ?_⟩
    · intro c hc
      have h1 : sentinelNoTranscript.head? = some 'N' := rfl
      rw [h1] at hc
      injection hc with h2
      subst h2
      decide
    · intro c hc
      have h1 : sentinelNoTranscript.getLast? = some '.' := by decide
      rw [h1] at hc
      injection hc with h2
      subst h2
      decide
  cases inp with
  | none => exact hsent
  | some frags =>
    by_cases hl : (runFragments frags).lines = []
    · rw [extract_sentinel_of_no_lines frags hl]
      exact hsent
    · have hink := runFragments_ink frags ⟨[], [], false⟩ (Or.inl rfl)
      rcases hink with h0 | ⟨c0, hc0mem, hc0⟩
      · exact absurd h0 hl
      · have hsne : pstrip (runFragments frags).lines.flatten ≠ [] :=
          stripP_ne_nil hc0mem hc0
        obtain ⟨hc, hhc⟩ : ∃ hc,
            (pstrip (runFragments frags).lines.flatten).head? = some hc := by
          cases hx : (pstrip (runFragments frags).lines.flatten).head? with
          | none => exact absurd (List.head?_eq_none_iff.mp hx) hsne
          | some a => exact ⟨a, rfl⟩
        obtain ⟨lc, hlc⟩ := exists_getLast?_of_ne_nil hsne
        have hheadns : isPySpace hc = false := head?_stripP hhc
        have hlastns : isPySpace lc = false := getLast?_stripP hlc
        have hcne : hc ≠ '\n' := by
          intro hk
          rw [hk] at hheadns
          exact absurd hheadns (by decide)
        have hlne : lc ≠ '\n' := by
          intro hk
          rw [hk] at hlastns
          exact absurd hlastns (by decide)
        have h1 : (collapseNewlines
            (pstrip (runFragments frags).lines.flatten)).head? = some hc :=
          collapseNL_head hhc hcne
        have h2 : (collapseNewlines
            (pstrip (runFragments frags).lines.flatten)).getLast? = some lc :=
          collapseNL_getLast _ lc hlne 0 hlc
        have hcol_ne : collapseNewlines
            (pstrip (runFragments frags).lines.flatten) ≠ [] :=
          ne_nil_of_head?_some h1
        have h3 : (insertBlankLines (collapseNewlines
            (pstrip (runFragments frags).lines.flatten))).head? = some hc := by
          unfold insertBlankLines
          rw [insertBlanksF_head?]
          exact h1
        have h4 : (insertBlankLines (collapseNewlines
            (pstrip (runFragments frags).lines.flatten))).getLast?
            = some lc := by
          unfold insertBlankLines
          rw [insertBlanksF_getLast? _ _ hcol_ne]
          exact h2
        have h5 : insertBlankLines (collapseNewlines
            (pstrip (runFragments frags).lines.flatten)) ≠ [] :=
          ne_nil_of_head?_some h3
        have hext : extractTranscript (some frags)
            = insertBlankLines (collapseNewlines
                (pstrip (runFragments frags).lines.flatten)) := by
          simp only [extractTranscript]
          rw [if_neg (fun hcontra => h5 (by simpa using hcontra))]
        refine ⟨by rw [hext]; exact h5, ?_, ?_⟩
        · intro c hcq
          rw [hext, h3] at hcq
          injection hcq with he
          subst he
          exact hheadns
        · intro c hcq
          rw [hext, h4] at hcq
          injection hcq with he
          subst he
          exact hlastns

/-- Claim C7 witness: the empty fragment list emits nothing, and the
extractor returns the sentinel. -/
theorem claim_C7_witness :
    extractTranscript (some []) = sentinelNoTranscript :=
  claim_C7_sentinel_or_trimmed.2.1 [] rfl

/-! ## Claim C1: idempotence of a second run -/

end BTB
